import Mathlib

/-!
Verification of the name-generation engine in `name_generator_enhanced.py`.

The Python code is shallowly embedded: strings become `List Char`, the
`collections.Counter` frequency pools become insertion-ordered association
lists, the global `random` source becomes an explicitly threaded stream of
integer draws, and exceptions become `Except`/`Option` values.  All
definitions are executable.
-/

/-- Python strings are modelled as lists of characters. -/
abbrev PyStr := List Char

/-- The `VOWELS` constant of the source: Latin vowels, their accented
variants, and `y`/`Y`, exactly as listed in the Python set literal. -/
def VOWELS : List Char :=
  ['a', 'e', 'i', 'o', 'u', 'A', 'E', 'I', 'O', 'U',
   'á', 'é', 'í', 'ó', 'ú', 'Á', 'É', 'Í', 'Ó', 'Ú',
   'à', 'è', 'ì', 'ò', 'ù', 'À', 'È', 'Ì', 'Ò', 'Ù',
   'â', 'ê', 'î', 'ô', 'û', 'Â', 'Ê', 'Î', 'Ô', 'Û',
   'ä', 'ë', 'ï', 'ö', 'ü', 'Ä', 'Ë', 'Ï', 'Ö', 'Ü',
   'y', 'Y']

/-- Membership test `ch in VOWELS`. -/
def isVowel (c : Char) : Bool := VOWELS.contains c

/-- Whitespace recognized by `str.strip()` (ASCII whitespace; the corpus
and the claims never involve non-ASCII whitespace). -/
def isPySpace (c : Char) : Bool :=
  c == ' ' || c == '\t' || c == '\n' || c == '\r' || c == '\x0b' || c == '\x0c'

/-- `name.strip()`: drop leading and trailing whitespace. -/
def pyStrip (s : PyStr) : PyStr :=
  ((s.dropWhile isPySpace).reverse.dropWhile isPySpace).reverse

/-- Helper for `vowel_positions`, carrying the index of the next character,
mirroring `enumerate(name)`. -/
def vowel_positions_from (i : Nat) : PyStr → List Nat
  | [] => []
  | c :: cs =>
    if isVowel c then i :: vowel_positions_from (i + 1) cs
    else vowel_positions_from (i + 1) cs

/-- `vowel_positions(name)`: the indices of the vowel characters, in order. -/
def vowel_positions (name : PyStr) : List Nat := vowel_positions_from 0 name

/-- Round-half-to-even of the rational a/b (b > 0).  This embeds CPython's
`round(n * 0.30)` (as `pyRound (3*n) 10`) and `round(n * 0.20)`
(as `pyRound (2*n) 10`): the IEEE-754 double product `n * 0.3` (resp.
`n * 0.2`) rounds to the double nearest the exact rational `3n/10`
(resp. `2n/10`), and that double's distance from the nearest rounding
boundary exceeds the representation error for every feasible string
length, so Python's banker's rounding of the product coincides with
round-half-to-even of the exact rational. -/
def pyRound (a b : Nat) : Nat :=
  let q := a / b
  let r := a % b
  if 2 * r < b then q
  else if b < 2 * r then q + 1
  else if q % 2 = 0 then q else q + 1

/-- The `while pref_len + suff_len >= n` reduction loop of the fallback
split, with explicit fuel.  Each iteration decrements `suff_len` (while it
exceeds 1), then `pref_len` (while it exceeds 1), else stops. -/
def adjustFuel : Nat → Nat → Nat → Nat → Nat × Nat
  | 0, p, s, _ => (p, s)
  | f + 1, p, s, n =>
    if n ≤ p + s then
      if 1 < s then adjustFuel f p (s - 1) n
      else if 1 < p then adjustFuel f (p - 1) s n
      else (p, s)
    else (p, s)

/-- The reduction loop; fuel `p + s` suffices because every iteration
decrements `p + s` by one. -/
def adjust (p s n : Nat) : Nat × Nat := adjustFuel (p + s) p s n

/-- The body of `split_name` after `name = name.strip()`: the
vowel-boundary heuristic of the source.  Slices `name[a:b]` are rendered
as `(name.take b).drop a`, `name[-k:]` as `name.drop (n - k)`. -/
def split_core (name : PyStr) : PyStr × PyStr × PyStr :=
  let n := name.length
  if n = 0 then ([], [], [])
  else
    let v_pos := vowel_positions name
    if 2 ≤ v_pos.length then
      let first_v := v_pos.headD 0
      let last_v := v_pos.getLastD 0
      (name.take (first_v + 1), (name.take last_v).drop (first_v + 1),
       name.drop last_v)
    else if v_pos.length = 1 ∧ 3 ≤ n then
      (name.take 1, (name.take (n - 1)).drop 1, name.drop (n - 1))
    else
      let pl0 := max 1 (pyRound (3 * n) 10)
      let sl0 := max 1 (pyRound (2 * n) 10)
      let ps := adjust pl0 sl0 n
      (name.take ps.1,
       if ps.1 + ps.2 < n then (name.take (n - ps.2)).drop ps.1 else [],
       name.drop (n - ps.2))

/-- `split_name(name)`: strip, then apply the vowel-boundary heuristic. -/
def split_name (name : PyStr) : PyStr × PyStr × PyStr :=
  split_core (pyStrip name)

/-- A `collections.Counter` as an insertion-ordered association list from
segment to occurrence count. -/
abbrev Counter := List (PyStr × Nat)

/-- `counter[k] += 1`: bump the count of an existing key, or append the key
with count 1 (Python dicts preserve insertion order). -/
def incr : Counter → PyStr → Counter
  | [], k => [(k, 1)]
  | (k1, v) :: rest, k =>
    if k1 = k then (k1, v + 1) :: rest else (k1, v) :: incr rest k

/-- `if seg: counter[seg] += 1` — empty segments are dropped. -/
def addSeg (c : Counter) (k : PyStr) : Counter :=
  if k = [] then c else incr c k

/-- One iteration of the pooling loop of `build_weighted_pools`. -/
def buildStep (acc : Counter × Counter × Counter) (raw : PyStr) :
    Counter × Counter × Counter :=
  let pms := split_name raw
  (addSeg acc.1 pms.1, addSeg acc.2.1 pms.2.1, addSeg acc.2.2 pms.2.2)

/-- The three counters accumulated over the corpus. -/
def buildCounters (names : List PyStr) : Counter × Counter × Counter :=
  names.foldl buildStep ([], [], [])

/-- Message of the `ValueError` raised by `build_weighted_pools`. -/
def insufficientMsg : String := "Insufficient data after preprocessing."

/-- `build_weighted_pools(names)`: accumulate the three pools and raise if
any of them is empty. -/
def build_weighted_pools (names : List PyStr) :
    Except String (Counter × Counter × Counter) :=
  let pms := buildCounters names
  if pms.1 = [] ∨ pms.2.1 = [] ∨ pms.2.2 = [] then Except.error insufficientMsg
  else Except.ok pms

/-- `list(counter.keys())` — a read returning the counter unchanged. -/
def counter_keys_st (c : Counter) : List PyStr × Counter :=
  (c.map (fun kv => kv.1), c)

/-- `list(counter.values())` — a read returning the counter unchanged. -/
def counter_values_st (c : Counter) : List Nat × Counter :=
  (c.map (fun kv => kv.2), c)

/-- Modelled from the spec: the selection step of `random.choices`
(Python standard library, not part of this repository): walk the
population against the cumulative weights and return the key whose weight
bucket contains the uniform draw `u`. -/
def pickIdx : List PyStr → List Nat → Nat → PyStr
  | [], _, _ => []
  | k :: _, [], _ => k
  | k :: ks, w :: ws, u => if u < w then k else pickIdx ks ws (u - w)

/-- `weighted_choice(counter)` driven by one integer draw `r` from the
injected pseudorandom stream: the draw is reduced modulo the total weight
and used to select a key with probability proportional to its count.  The
counter is only read, and is returned unchanged. -/
def weighted_choice_st (c : Counter) (r : Nat) : PyStr × Counter :=
  let pc := counter_keys_st c
  let wc := counter_values_st pc.2
  let total := wc.1.foldl (fun a b => a + b) 0
  (pickIdx pc.1 wc.1 (r % total), wc.2)

/-- The sampled value of `weighted_choice`. -/
def weighted_choice (c : Counter) (r : Nat) : PyStr :=
  (weighted_choice_st c r).1

/-- Message of the `RuntimeError` raised by `generate_name`. -/
def lenErrMsg : String :=
  "Unable to build a name within the requested length bounds."

/-- The `for _ in range(1000)` retry loop of `generate_name`.  `pos` is the
position in the injected stream of uniform draws: each attempt consumes
three draws.  The three counters are threaded through every read so that
any mutation would be visible in the returned pool state. -/
def genLoop_st (minL maxL : Nat) (rng : Nat → Nat) :
    Nat → Nat → Counter × Counter × Counter →
    (Except String PyStr × Nat) × (Counter × Counter × Counter)
  | 0, pos, ps => ((Except.error lenErrMsg, pos), ps)
  | fuel + 1, pos, (p, m, s) =>
    let pr := weighted_choice_st p (rng pos)
    let mr := weighted_choice_st m (rng (pos + 1))
    let sr := weighted_choice_st s (rng (pos + 2))
    let nm := pr.1 ++ mr.1 ++ sr.1
    if minL ≤ nm.length ∧ nm.length ≤ maxL then
      ((Except.ok nm, pos + 3), (pr.2, mr.2, sr.2))
    else genLoop_st minL maxL rng fuel (pos + 3) (pr.2, mr.2, sr.2)

/-- `generate_name(pools, min_len, max_len)`: up to 1000 attempts, each
sampling one segment per pool and accepting a concatenation whose length
lies within the bounds; raises once the budget is exhausted. -/
def generate_name (pools : Counter × Counter × Counter)
    (minL maxL : Nat) (rng : Nat → Nat) (pos : Nat) :
    (Except String PyStr × Nat) × (Counter × Counter × Counter) :=
  genLoop_st minL maxL rng 1000 pos pools

/-- The candidate concatenation produced by the attempt whose three draws
start at stream position `pos`. -/
def candidate (pools : Counter × Counter × Counter) (rng : Nat → Nat)
    (pos : Nat) : PyStr :=
  weighted_choice pools.1 (rng pos) ++ weighted_choice pools.2.1 (rng (pos + 1))
    ++ weighted_choice pools.2.2 (rng (pos + 2))

/-- The acceptance test `min_len <= len(name) <= max_len`. -/
def inBounds (minL maxL : Nat) (nm : PyStr) : Prop :=
  minL ≤ nm.length ∧ nm.length ≤ maxL

instance (minL maxL : Nat) (nm : PyStr) : Decidable (inBounds minL maxL nm) :=
  inferInstanceAs (Decidable (_ ∧ _))

/-- The finite-mode driver loop of `main`: `for _ in range(count):
print(generate_name(...))`.  Returns the emitted names in order, together
with the error signal (`some msg`) if a `generate_name` call raised —
the `RuntimeError` is not caught in `main`, so it aborts the remaining
batch with a visible failure. -/
def finite_mode (pools : Counter × Counter × Counter) (minL maxL : Nat)
    (rng : Nat → Nat) : Nat → Nat → List PyStr × Option String
  | 0, _ => ([], none)
  | Nat.succ k, pos =>
    match genLoop_st minL maxL rng 1000 pos pools with
    | ((Except.ok nm, pos2), _) =>
      let rest := finite_mode pools minL maxL rng k pos2
      (nm :: rest.1, rest.2)
    | ((Except.error msg, _), _) => ([], some msg)

/-- Stable insertion (descending by count, earlier insertion first among
ties) used to model `Counter.most_common()`. -/
def insertByCount (x : PyStr × Nat) : List (PyStr × Nat) → List (PyStr × Nat)
  | [] => [x]
  | y :: ys => if x.2 < y.2 then y :: insertByCount x ys else x :: y :: ys

/-- `counter.most_common()`: the pairs sorted by descending count, ties in
insertion order. -/
def most_common (c : Counter) : List (PyStr × Nat) :=
  c.foldr insertByCount []

/-- `sum(counter.values())`. -/
def sumVals (c : Counter) : Nat := c.foldl (fun a kv => a + kv.2) 0

/-- `dump_counters(label, counter)`, modelled by the data it prints: the
unique-key count, the total count, and the `most_common()` listing.  All
three are reads; the counter is returned unchanged. -/
def dump_counters_st (c : Counter) :
    (Nat × Nat × List (PyStr × Nat)) × Counter :=
  ((c.length, sumVals c, most_common c), c)

/-- Modelled from the spec: the seeded pseudorandom source
(`random.seed(seed)` and the Python Mersenne-Twister generator are
standard-library collaborators, not part of this repository).  Any fixed
deterministic function of the seed realises the spec's reproducibility
contract; the draw at stream position `pos` is a fixed mixing function of
`seed` and `pos`. -/
def seedStream (seed : Nat) : Nat → Nat :=
  fun pos => (seed + pos + 1) * 2654435761 % 4294967296

/-- One generation session of `main` (finite mode): seed the random source
if a seed is given (otherwise keep the ambient global stream `g0`), build
the pools, and run the finite-mode driver. -/
def session (names : List PyStr) (count minL maxL : Nat)
    (seed : Option Nat) (g0 : Nat → Nat) :
    Except String (List PyStr × Option String) :=
  let rng := match seed with
    | some sd => seedStream sd
    | none => g0
  match build_weighted_pools names with
  | Except.error e => Except.error e
  | Except.ok pools => Except.ok (finite_mode pools minL maxL rng count 0)

/-- Greedily take one syllable: the leading run of consonants plus at most
one following vowel (per the spec's syllable definition). -/
def grabSyllable : PyStr → PyStr × PyStr
  | [] => ([], [])
  | c :: rest =>
    if isVowel c then ([c], rest)
    else
      let pr := grabSyllable rest
      (c :: pr.1, pr.2)

/-- Fueled left-to-right greedy syllable scan (fuel `length` suffices,
since every syllable consumes at least one character). -/
def syllabifyFuel : Nat → PyStr → List PyStr
  | 0, _ => []
  | _, [] => []
  | f + 1, c :: cs =>
    let pr := grabSyllable (c :: cs)
    pr.1 :: syllabifyFuel f pr.2

/-- The spec's syllable decomposition: scan left to right, greedily
building syllables of zero or more consonants followed by at most one
vowel. -/
def syllabify (s : PyStr) : List PyStr := syllabifyFuel s.length s

/-- The syllable-greedy Segmenter exactly as the claim states it:
classify the syllable sequence by its length (0, 1, 2, 3, or 4-and-more
syllables). -/
def syllableSplit (name : PyStr) : PyStr × PyStr × PyStr :=
  match syllabify name with
  | [] => ([], [], [])
  | [a] => (a, [], [])
  | [a, b] => (a, [], b)
  | [a, b, c] => (a, b, c)
  | a :: rest =>
    (a, rest.dropLast.foldl (fun acc x => acc ++ x) [], rest.getLastD [])

/-- A name that is one single syllable in the sense of the spec. -/
def isSingleSyllable (s : PyStr) : Bool := (syllabify s).length == 1

/-- Index of the first vowel, if any (spec-side formulation). -/
def firstVowelIdx? : PyStr → Option Nat
  | [] => none
  | c :: cs =>
    if isVowel c then some 0 else (firstVowelIdx? cs).map (· + 1)

/-- Index of the last vowel, if any (spec-side formulation). -/
def lastVowelIdx? : PyStr → Option Nat
  | [] => none
  | c :: cs =>
    match lastVowelIdx? cs with
    | some j => some (j + 1)
    | none => if isVowel c then some 0 else none

/-- Number of vowel characters. -/
def vowelCount (s : PyStr) : Nat := (s.filter isVowel).length

/-- Closed form of the fallback length-reduction loop: the suffix length
is shrunk to fit first (never below 1), then the prefix length. -/
def fitLengths (p0 s0 n : Nat) : Nat × Nat :=
  let s1 := max 1 (min s0 (n - 1 - p0))
  let p1 := max 1 (min p0 (n - 1 - s1))
  (p1, s1)

/-- The vowel-boundary Segmenter as the amended claim describes it:
with at least two vowels, split at the first and last vowel; with exactly
one vowel in a name of length at least 3, keep a one-character prefix and
suffix; otherwise use the 30%/20% length-ratio fallback (banker's
rounding, each at least 1, shrunk to fit). -/
def split_core_spec (name : PyStr) : PyStr × PyStr × PyStr :=
  let n := name.length
  if n = 0 then ([], [], [])
  else if 2 ≤ vowelCount name then
    let fv := (firstVowelIdx? name).getD 0
    let lv := (lastVowelIdx? name).getD 0
    (name.take (fv + 1), (name.take lv).drop (fv + 1), name.drop lv)
  else if vowelCount name = 1 ∧ 3 ≤ n then
    (name.take 1, (name.take (n - 1)).drop 1, name.drop (n - 1))
  else
    let ps := fitLengths (max 1 (pyRound (3 * n) 10))
      (max 1 (pyRound (2 * n) 10)) n
    (name.take ps.1,
     if ps.1 + ps.2 < n then (name.take (n - ps.2)).drop ps.1 else [],
     name.drop (n - ps.2))

/-- The amended Segmenter contract: strip, then vowel-boundary split. -/
def split_name_spec (name : PyStr) : PyStr × PyStr × PyStr :=
  split_core_spec (pyStrip name)

/-- The contract of `generate_name` as claimed: within at most 1000
attempts it returns the first candidate concatenation whose length lies
within the bounds, and if every one of the 1000 attempts fails it raises
the length-bounds error — in particular the call always terminates with
one of these two outcomes. -/
def genSpec (pools : Counter × Counter × Counter) (minL maxL : Nat)
    (rng : Nat → Nat) (pos : Nat) : Prop :=
  (∃ k, k < 1000 ∧ inBounds minL maxL (candidate pools rng (pos + 3 * k)) ∧
    (∀ j, j < k → ¬inBounds minL maxL (candidate pools rng (pos + 3 * j))) ∧
    (generate_name pools minL maxL rng pos).1.1
      = Except.ok (candidate pools rng (pos + 3 * k))) ∨
  ((generate_name pools minL maxL rng pos).1.1 = Except.error lenErrMsg ∧
    ∀ k, k < 1000 → ¬inBounds minL maxL (candidate pools rng (pos + 3 * k)))

/-- Concrete prefix pool for the finite-mode counterexample: sampling can
yield a short segment on one call and a long one on the next. -/
def ceP : Counter := [(['a'], 1), (['z', 'z'], 1)]

/-- Concrete middle pool for the finite-mode counterexample. -/
def ceM : Counter := [(['b'], 1)]

/-- Concrete suffix pool for the finite-mode counterexample. -/
def ceS : Counter := [(['c'], 1)]

/-- Concrete draw stream for the finite-mode counterexample: draw 0 at
stream position 0 and draw 1 from then on, so the first attempt of the
first call picks the short prefix and every later attempt picks the long
one. -/
def ceRng : Nat → Nat := fun pos => min pos 1

/-! ### Lemmas about vowel positions -/

lemma vpf_length (s : PyStr) : ∀ i : Nat,
    (vowel_positions_from i s).length = vowelCount s := by
  induction s with
  | nil => intro i; simp [vowel_positions_from, vowelCount]
  | cons c cs ih =>
    intro i
    by_cases hc : isVowel c
    · simp [vowel_positions_from, vowelCount, List.filter_cons, hc, ih (i + 1)]
    · simpa [vowel_positions_from, vowelCount, List.filter_cons, hc]
        using ih (i + 1)

lemma vpf_headD (s : PyStr) : ∀ i d : Nat,
    (vowel_positions_from i s).headD d
      = ((firstVowelIdx? s).map (fun j => i + j)).getD d := by
  induction s with
  | nil => intro i d; simp [vowel_positions_from, firstVowelIdx?]
  | cons c cs ih =>
    intro i d
    by_cases hc : isVowel c
    · simp [vowel_positions_from, firstVowelIdx?, hc]
    · simp only [vowel_positions_from, firstVowelIdx?, hc, if_false,
        Bool.false_eq_true]
      rw [ih (i + 1) d]
      cases h : firstVowelIdx? cs <;> simp [h] <;> omega

lemma vpf_getLastD (s : PyStr) : ∀ i d : Nat,
    (vowel_positions_from i s).getLastD d
      = ((lastVowelIdx? s).map (fun j => i + j)).getD d := by
  induction s with
  | nil => intro i d; simp [vowel_positions_from, lastVowelIdx?]
  | cons c cs ih =>
    intro i d
    by_cases hc : isVowel c
    · simp only [vowel_positions_from, hc, if_true, lastVowelIdx?]
      rw [List.getLastD_cons, ih (i + 1) i]
      cases h : lastVowelIdx? cs <;> simp [h] <;> omega
    · simp only [vowel_positions_from, hc, if_false, lastVowelIdx?,
        Bool.false_eq_true]
      rw [ih (i + 1) d]
      cases h : lastVowelIdx? cs <;> simp [h, hc] <;> omega

lemma lastVowelIdx_lt_length (s : PyStr) : ∀ j : Nat,
    lastVowelIdx? s = some j → j < s.length := by
  induction s with
  | nil => intro j h; simp [lastVowelIdx?] at h
  | cons c cs ih =>
    intro j h
    simp only [lastVowelIdx?] at h
    cases h2 : lastVowelIdx? cs with
    | some j0 =>
      rw [h2] at h
      simp only [Option.some.injEq] at h
      have := ih j0 h2
      simp only [List.length_cons]
      omega
    | none =>
      rw [h2] at h
      by_cases hc : isVowel c <;> simp [hc] at h
      simp [← h]

lemma lastVowelIdx_isSome_of_count (s : PyStr) (h : 1 ≤ vowelCount s) :
    ∃ j, lastVowelIdx? s = some j := by
  induction s with
  | nil => simp [vowelCount] at h
  | cons c cs ih =>
    by_cases hc : isVowel c
    · cases h2 : lastVowelIdx? cs with
      | some j0 => exact ⟨j0 + 1, by simp [lastVowelIdx?, h2]⟩
      | none => exact ⟨0, by simp [lastVowelIdx?, h2, hc]⟩
    · have hcnt : 1 ≤ vowelCount cs := by
        simpa [vowelCount, List.filter_cons, hc] using h
      obtain ⟨j0, hj0⟩ := ih hcnt
      exact ⟨j0 + 1, by simp [lastVowelIdx?, hj0]⟩

lemma firstVowelIdx_isSome_of_count (s : PyStr) (h : 1 ≤ vowelCount s) :
    ∃ j, firstVowelIdx? s = some j := by
  induction s with
  | nil => simp [vowelCount] at h
  | cons c cs ih =>
    by_cases hc : isVowel c
    · exact ⟨0, by simp [firstVowelIdx?, hc]⟩
    · have hcnt : 1 ≤ vowelCount cs := by
        simpa [vowelCount, List.filter_cons, hc] using h
      obtain ⟨j0, hj0⟩ := ih hcnt
      exact ⟨j0 + 1, by simp [firstVowelIdx?, hc, hj0]⟩

lemma first_lt_last_of_two (s : PyStr) (h : 2 ≤ vowelCount s) :
    ∀ fj lj, firstVowelIdx? s = some fj → lastVowelIdx? s = some lj →
      fj < lj := by
  induction s with
  | nil => simp [vowelCount] at h
  | cons c cs ih =>
    intro fj lj hf hl
    by_cases hc : isVowel c
    · have hcnt : 1 ≤ vowelCount cs := by
        simp [vowelCount, List.filter_cons, hc] at h
        simpa [vowelCount] using h
      obtain ⟨j0, hj0⟩ := lastVowelIdx_isSome_of_count cs hcnt
      simp [firstVowelIdx?, hc] at hf
      simp [lastVowelIdx?, hj0] at hl
      omega
    · have hcnt : 2 ≤ vowelCount cs := by
        simpa [vowelCount, List.filter_cons, hc] using h
      obtain ⟨f0, hf0⟩ := firstVowelIdx_isSome_of_count cs (by omega)
      obtain ⟨l0, hl0⟩ := lastVowelIdx_isSome_of_count cs (by omega)
      simp [firstVowelIdx?, hc, hf0] at hf
      simp [lastVowelIdx?, hl0] at hl
      have := ih hcnt f0 l0 hf0 hl0
      omega

/-! ### Lemmas about the fallback reduction loop -/

lemma adjustFuel_fit : ∀ (f p s n : Nat), 1 ≤ p → 1 ≤ s → p + s ≤ f →
    adjustFuel f p s n = fitLengths p s n := by
  intro f
  induction f with
  | zero => intro p s n hp hs hf; omega
  | succ f ih =>
    intro p s n hp hs hf
    simp only [adjustFuel]
    by_cases h1 : n ≤ p + s
    · rw [if_pos h1]
      by_cases h2 : 1 < s
      · rw [if_pos h2, ih p (s - 1) n hp (by omega) (by omega)]
        simp only [fitLengths, Prod.mk.injEq]
        constructor <;> omega
      · rw [if_neg h2]
        by_cases h3 : 1 < p
        · rw [if_pos h3, ih (p - 1) s n (by omega) hs (by omega)]
          simp only [fitLengths, Prod.mk.injEq]
          constructor <;> omega
        · rw [if_neg h3]
          simp only [fitLengths, Prod.mk.injEq]
          constructor <;> omega
    · rw [if_neg h1]
      simp only [fitLengths, Prod.mk.injEq]
      constructor <;> omega

lemma adjust_eq_fit (p s n : Nat) (hp : 1 ≤ p) (hs : 1 ≤ s) :
    adjust p s n = fitLengths p s n :=
  adjustFuel_fit (p + s) p s n hp hs le_rfl

lemma fitLengths_spec (p0 s0 n : Nat) (hp : 1 ≤ p0) (hs : 1 ≤ s0) :
    1 ≤ (fitLengths p0 s0 n).1 ∧ 1 ≤ (fitLengths p0 s0 n).2 ∧
      ((fitLengths p0 s0 n).1 + (fitLengths p0 s0 n).2 < n ∨
        ((fitLengths p0 s0 n).1 = 1 ∧ (fitLengths p0 s0 n).2 = 1 ∧ n ≤ 2)) := by
  simp only [fitLengths]
  omega

/-! ### Structural lemmas about the Segmenter -/

lemma dropWhile_length_le (p : Char → Bool) (l : PyStr) :
    (l.dropWhile p).length ≤ l.length :=
  (List.dropWhile_suffix p).length_le

lemma pyStrip_length_le (s : PyStr) : (pyStrip s).length ≤ s.length := by
  simp only [pyStrip, List.length_reverse]
  exact le_trans (dropWhile_length_le _ _)
    (by simpa using dropWhile_length_le isPySpace s)

/-- Reassembling a take/middle-slice/drop decomposition gives back the
list, provided the two cut points are ordered. -/
lemma concat3 (t : PyStr) (a b : Nat) (h : a ≤ b) :
    t.take a ++ ((t.take b).drop a ++ t.drop b) = t := by
  have h1 : t.take a = (t.take b).take a := by
    rw [List.take_take, Nat.min_eq_left h]
  rw [h1, ← List.append_assoc, List.take_append_drop, List.take_append_drop]

/-! ### The Segmenter equals the vowel-boundary contract -/

lemma split_core_eq_spec (name : PyStr) :
    split_core name = split_core_spec name := by
  simp only [split_core, split_core_spec]
  by_cases h0 : name.length = 0
  · simp [h0]
  · have hlen : (vowel_positions name).length = vowelCount name :=
      vpf_length name 0
    have hf : (vowel_positions name).headD 0 = (firstVowelIdx? name).getD 0 := by
      rw [vowel_positions, vpf_headD name 0 0]
      cases h : firstVowelIdx? name <;> simp [h]
    have hl : (vowel_positions name).getLastD 0
        = (lastVowelIdx? name).getD 0 := by
      rw [vowel_positions, vpf_getLastD name 0 0]
      cases h : lastVowelIdx? name <;> simp [h]
    have hf' : (vowel_positions name).head?.getD 0
        = (firstVowelIdx? name).getD 0 := by simpa using hf
    have hl' : (vowel_positions name).getLast?.getD 0
        = (lastVowelIdx? name).getD 0 := by simpa using hl
    by_cases h2 : 2 ≤ vowelCount name
    · simp [h0, hlen, h2, hf', hl']
    · by_cases h1 : vowelCount name = 1 ∧ 3 ≤ name.length
      · simp [h0, hlen, h2, h1]
      · have hadj := adjust_eq_fit (max 1 (pyRound (3 * name.length) 10))
          (max 1 (pyRound (2 * name.length) 10)) name.length
          (le_max_left 1 _) (le_max_left 1 _)
        simp [h0, hlen, h2, h1, hadj]

lemma split_core_spec_concat (t : PyStr) (h : 2 ≤ t.length) :
    (split_core_spec t).1 ++ ((split_core_spec t).2.1 ++ (split_core_spec t).2.2)
      = t := by
  have h0 : ¬t.length = 0 := by omega
  simp only [split_core_spec, h0, if_false]
  by_cases h2 : 2 ≤ vowelCount t
  · obtain ⟨fj, hfj⟩ := firstVowelIdx_isSome_of_count t (by omega)
    obtain ⟨lj, hlj⟩ := lastVowelIdx_isSome_of_count t (by omega)
    have hlt := first_lt_last_of_two t h2 fj lj hfj hlj
    simp only [h2, if_true, hfj, hlj, Option.getD_some]
    exact concat3 t (fj + 1) lj (by omega)
  · by_cases h1 : vowelCount t = 1 ∧ 3 ≤ t.length
    · simp only [h2, if_false, h1, if_true]
      exact concat3 t 1 (t.length - 1) (by omega)
    · have hfit := fitLengths_spec (max 1 (pyRound (3 * t.length) 10))
        (max 1 (pyRound (2 * t.length) 10)) t.length
        (le_max_left 1 _) (le_max_left 1 _)
      simp only [h2, if_false, h1]
      rcases hfit.2.2 with hlt | hbreak
      · simp only [if_pos hlt]
        exact concat3 t _ _ (by omega)
      · obtain ⟨hb1, hb2, hbn⟩ := hbreak
        rw [if_neg (by omega), hb1, hb2]
        have h21 : t.length - 1 = 1 := by omega
        rw [h21]
        simpa using List.take_append_drop 1 t

lemma split_core_spec_pre_suf (t : PyStr) (h : t ≠ []) :
    (split_core_spec t).1 ≠ [] ∧ (split_core_spec t).2.2 ≠ [] := by
  have h0 : ¬t.length = 0 := by simpa [List.length_eq_zero] using h
  simp only [split_core_spec, h0, if_false]
  by_cases h2 : 2 ≤ vowelCount t
  · obtain ⟨lj, hlj⟩ := lastVowelIdx_isSome_of_count t (by omega)
    have hb := lastVowelIdx_lt_length t lj hlj
    simp only [h2, if_true, hlj, Option.getD_some]
    constructor
    · simp [List.take_eq_nil_iff, h]
    · simp only [ne_eq, List.drop_eq_nil_iff]
      omega
  · by_cases h1 : vowelCount t = 1 ∧ 3 ≤ t.length
    · rw [if_neg h2, if_pos h1]
      have h3 := h1.2
      constructor
      · simp [List.take_eq_nil_iff, h]
      · simp only [ne_eq, List.drop_eq_nil_iff]
        omega
    · have hfit := fitLengths_spec (max 1 (pyRound (3 * t.length) 10))
        (max 1 (pyRound (2 * t.length) 10)) t.length
        (le_max_left 1 _) (le_max_left 1 _)
      simp only [h2, if_false, h1]
      constructor
      · simp only [ne_eq, List.take_eq_nil_iff, not_or]
        exact ⟨by omega, h⟩
      · simp only [ne_eq, List.drop_eq_nil_iff]
        omega

lemma split_core_spec_mid_short (t : PyStr) (h : t.length ≤ 2) :
    (split_core_spec t).2.1 = [] := by
  by_cases h0 : t.length = 0
  · simp [split_core_spec, h0]
  · simp only [split_core_spec, h0, if_false]
    by_cases h2 : 2 ≤ vowelCount t
    · obtain ⟨fj, hfj⟩ := firstVowelIdx_isSome_of_count t (by omega)
      obtain ⟨lj, hlj⟩ := lastVowelIdx_isSome_of_count t (by omega)
      have hlt := first_lt_last_of_two t h2 fj lj hfj hlj
      have hb := lastVowelIdx_lt_length t lj hlj
      simp only [h2, if_true, hfj, hlj, Option.getD_some]
      simp only [List.drop_eq_nil_iff, List.length_take]
      omega
    · by_cases h1 : vowelCount t = 1 ∧ 3 ≤ t.length
      · omega
      · have hfit := fitLengths_spec (max 1 (pyRound (3 * t.length) 10))
          (max 1 (pyRound (2 * t.length) 10)) t.length
          (le_max_left 1 _) (le_max_left 1 _)
        simp only [h2, if_false, h1]
        rw [if_neg (by omega)]

/-- Transfer of the concatenation lemma to the code-side Segmenter. -/
lemma split_name_concat (s : PyStr) (h : 2 ≤ (pyStrip s).length) :
    (split_name s).1 ++ ((split_name s).2.1 ++ (split_name s).2.2)
      = pyStrip s := by
  rw [split_name, split_core_eq_spec]
  exact split_core_spec_concat (pyStrip s) h

/-- Transfer: non-trivial stripped input gives non-empty prefix/suffix. -/
lemma split_name_pre_suf (s : PyStr) (h : pyStrip s ≠ []) :
    (split_name s).1 ≠ [] ∧ (split_name s).2.2 ≠ [] := by
  rw [split_name, split_core_eq_spec]
  exact split_core_spec_pre_suf (pyStrip s) h

/-- Transfer: stripped input of length at most 2 gives an empty middle. -/
lemma split_name_mid_short (s : PyStr) (h : (pyStrip s).length ≤ 2) :
    (split_name s).2.1 = [] := by
  rw [split_name, split_core_eq_spec]
  exact split_core_spec_mid_short (pyStrip s) h

/-! ### Lemmas about the frequency pools -/

/-- Every key of the counter is a non-empty segment with count at least 1. -/
def goodCounter (c : Counter) : Prop := ∀ kv ∈ c, kv.1 ≠ [] ∧ 1 ≤ kv.2

lemma goodCounter_incr (c : Counter) (k : PyStr) (hg : goodCounter c)
    (hk : k ≠ []) : goodCounter (incr c k) := by
  induction c with
  | nil =>
    intro kv hkv
    simp only [incr, List.mem_singleton] at hkv
    subst hkv
    exact ⟨hk, le_rfl⟩
  | cons hd tl ih =>
    obtain ⟨k1, v⟩ := hd
    intro kv hkv
    simp only [incr] at hkv
    by_cases he : k1 = k
    · rw [if_pos he] at hkv
      rcases List.mem_cons.mp hkv with h1 | h1
      · subst h1
        exact ⟨he ▸ hk, by omega⟩
      · exact hg kv (List.mem_cons_of_mem _ h1)
    · rw [if_neg he] at hkv
      rcases List.mem_cons.mp hkv with h1 | h1
      · subst h1
        exact hg (k1, v) (List.mem_cons_self _ _)
      · exact ih (fun kv2 hkv2 => hg kv2 (List.mem_cons_of_mem _ hkv2)) kv h1

lemma goodCounter_addSeg (c : Counter) (k : PyStr) (hg : goodCounter c) :
    goodCounter (addSeg c k) := by
  by_cases hk : k = []
  · simpa [addSeg, hk] using hg
  · simpa [addSeg, hk] using goodCounter_incr c k hg hk

lemma incr_ne_nil (c : Counter) (k : PyStr) : incr c k ≠ [] := by
  cases c with
  | nil => simp [incr]
  | cons hd tl =>
    obtain ⟨k1, v⟩ := hd
    by_cases he : k1 = k <;> simp [incr, he]

lemma addSeg_ne_nil_of (c : Counter) (k : PyStr) (h : c ≠ []) :
    addSeg c k ≠ [] := by
  by_cases hk : k = []
  · simpa [addSeg, hk] using h
  · simpa [addSeg, hk] using incr_ne_nil c k

lemma addSeg_ne_nil_of_key (c : Counter) (k : PyStr) (h : k ≠ []) :
    addSeg c k ≠ [] := by
  simpa [addSeg, h] using incr_ne_nil c k

lemma addSeg_nil_key (c : Counter) : addSeg c [] = c := by
  simp [addSeg]

/-- The foldl of `build_weighted_pools` preserves `goodCounter` on all
three pools. -/
lemma buildFold_good (names : List PyStr) :
    ∀ acc : Counter × Counter × Counter,
      goodCounter acc.1 → goodCounter acc.2.1 → goodCounter acc.2.2 →
      goodCounter (names.foldl buildStep acc).1 ∧
        goodCounter (names.foldl buildStep acc).2.1 ∧
        goodCounter (names.foldl buildStep acc).2.2 := by
  induction names with
  | nil => intro acc h1 h2 h3; exact ⟨h1, h2, h3⟩
  | cons nm rest ih =>
    intro acc h1 h2 h3
    simp only [List.foldl_cons]
    exact ih _ (goodCounter_addSeg _ _ h1) (goodCounter_addSeg _ _ h2)
      (goodCounter_addSeg _ _ h3)

/-- Once a pool is non-empty it stays non-empty through the foldl. -/
lemma buildFold_p_preserve (names : List PyStr) :
    ∀ acc : Counter × Counter × Counter, acc.1 ≠ [] →
      (names.foldl buildStep acc).1 ≠ [] := by
  induction names with
  | nil => intro acc h; exact h
  | cons nm rest ih =>
    intro acc h
    simp only [List.foldl_cons]
    exact ih _ (addSeg_ne_nil_of _ _ h)

lemma buildFold_s_preserve (names : List PyStr) :
    ∀ acc : Counter × Counter × Counter, acc.2.2 ≠ [] →
      (names.foldl buildStep acc).2.2 ≠ [] := by
  induction names with
  | nil => intro acc h; exact h
  | cons nm rest ih =>
    intro acc h
    simp only [List.foldl_cons]
    exact ih _ (addSeg_ne_nil_of _ _ h)

/-- A usable name (non-empty after trimming) makes the prefix pool
non-empty. -/
lemma buildFold_p_once (names : List PyStr) :
    ∀ acc : Counter × Counter × Counter,
      (∃ nm ∈ names, pyStrip nm ≠ []) →
      (names.foldl buildStep acc).1 ≠ [] := by
  induction names with
  | nil => intro acc h; simp at h
  | cons nm rest ih =>
    intro acc h
    simp only [List.foldl_cons]
    by_cases hnm : pyStrip nm ≠ []
    · refine buildFold_p_preserve rest _ ?_
      exact addSeg_ne_nil_of_key _ _ (split_name_pre_suf nm hnm).1
    · rcases h with ⟨nm2, hmem, hne⟩
      rcases List.mem_cons.mp hmem with h1 | h1
      · exact absurd (h1 ▸ hne) hnm
      · exact ih _ ⟨nm2, h1, hne⟩

/-- A usable name makes the suffix pool non-empty. -/
lemma buildFold_s_once (names : List PyStr) :
    ∀ acc : Counter × Counter × Counter,
      (∃ nm ∈ names, pyStrip nm ≠ []) →
      (names.foldl buildStep acc).2.2 ≠ [] := by
  induction names with
  | nil => intro acc h; simp at h
  | cons nm rest ih =>
    intro acc h
    simp only [List.foldl_cons]
    by_cases hnm : pyStrip nm ≠ []
    · refine buildFold_s_preserve rest _ ?_
      exact addSeg_ne_nil_of_key _ _ (split_name_pre_suf nm hnm).2
    · rcases h with ⟨nm2, hmem, hne⟩
      rcases List.mem_cons.mp hmem with h1 | h1
      · exact absurd (h1 ▸ hne) hnm
      · exact ih _ ⟨nm2, h1, hne⟩

/-- If every name splits with an empty middle, the middle pool stays
empty. -/
lemma buildFold_mid_nil (names : List PyStr) :
    ∀ acc : Counter × Counter × Counter,
      (∀ nm ∈ names, (split_name nm).2.1 = []) → acc.2.1 = [] →
      (names.foldl buildStep acc).2.1 = [] := by
  induction names with
  | nil => intro acc _ h; exact h
  | cons nm rest ih =>
    intro acc hall h
    simp only [List.foldl_cons]
    refine ih _ (fun nm2 h2 => hall nm2 (List.mem_cons_of_mem _ h2)) ?_
    have hmid := hall nm (List.mem_cons_self _ _)
    simp only [buildStep, hmid, addSeg_nil_key]
    exact h

/-- `build_weighted_pools` raises exactly when one of the three
accumulated pools is empty. -/
lemma build_error_iff (names : List PyStr) :
    build_weighted_pools names = Except.error insufficientMsg ↔
      ((buildCounters names).1 = [] ∨ (buildCounters names).2.1 = [] ∨
        (buildCounters names).2.2 = []) := by
  simp only [build_weighted_pools]
  by_cases h : (buildCounters names).1 = [] ∨ (buildCounters names).2.1 = []
      ∨ (buildCounters names).2.2 = []
  · simp [h]
  · simp [h]

/-! ### Lemmas about the retry loop of generate_name -/

lemma genLoop_step (minL maxL : Nat) (rng : Nat → Nat) (f pos : Nat)
    (p m s : Counter) :
    genLoop_st minL maxL rng (f + 1) pos (p, m, s)
      = if inBounds minL maxL (candidate (p, m, s) rng pos) then
          ((Except.ok (candidate (p, m, s) rng pos), pos + 3), (p, m, s))
        else genLoop_st minL maxL rng f (pos + 3) (p, m, s) := rfl

lemma genLoop_char (minL maxL : Nat) (rng : Nat → Nat) : ∀ (fuel pos : Nat)
    (ps : Counter × Counter × Counter),
    (∃ k, k < fuel ∧ inBounds minL maxL (candidate ps rng (pos + 3 * k)) ∧
      (∀ j, j < k → ¬inBounds minL maxL (candidate ps rng (pos + 3 * j))) ∧
      (genLoop_st minL maxL rng fuel pos ps).1.1
        = Except.ok (candidate ps rng (pos + 3 * k))) ∨
    ((genLoop_st minL maxL rng fuel pos ps).1.1 = Except.error lenErrMsg ∧
      ∀ k, k < fuel → ¬inBounds minL maxL (candidate ps rng (pos + 3 * k))) := by
  intro fuel
  induction fuel with
  | zero =>
    intro pos ps
    right
    exact ⟨rfl, fun k hk => absurd hk (by omega)⟩
  | succ f ih =>
    intro pos ps
    obtain ⟨p, m, s⟩ := ps
    rw [genLoop_step]
    by_cases hin : inBounds minL maxL (candidate (p, m, s) rng pos)
    · rw [if_pos hin]
      left
      exact ⟨0, by omega, by simpa using hin, fun j hj => absurd hj (by omega),
        by simpa⟩
    · rw [if_neg hin]
      rcases ih (pos + 3) (p, m, s) with ⟨k, hk, hin2, hall, heq⟩ | ⟨heq, hall⟩
      · left
        refine ⟨k + 1, by omega, ?_, ?_, ?_⟩
        · rw [show pos + 3 * (k + 1) = pos + 3 + 3 * k by ring]
          exact hin2
        · intro j hj
          cases j with
          | zero => simpa using hin
          | succ jj =>
            rw [show pos + 3 * (jj + 1) = pos + 3 + 3 * jj by ring]
            exact hall jj (by omega)
        · rw [show pos + 3 * (k + 1) = pos + 3 + 3 * k by ring]
          exact heq
      · right
        refine ⟨heq, ?_⟩
        intro k hk
        cases k with
        | zero => simpa using hin
        | succ kk =>
          rw [show pos + 3 * (kk + 1) = pos + 3 + 3 * kk by ring]
          exact hall kk (by omega)

lemma genLoop_all_fail (minL maxL : Nat) (rng : Nat → Nat) : ∀ (fuel pos : Nat)
    (ps : Counter × Counter × Counter),
    (∀ k, k < fuel → ¬inBounds minL maxL (candidate ps rng (pos + 3 * k))) →
    genLoop_st minL maxL rng fuel pos ps
      = ((Except.error lenErrMsg, pos + 3 * fuel), ps) := by
  intro fuel
  induction fuel with
  | zero =>
    intro pos ps _
    simp [genLoop_st]
  | succ f ih =>
    intro pos ps hall
    obtain ⟨p, m, s⟩ := ps
    rw [genLoop_step, if_neg (by simpa using hall 0 (by omega))]
    rw [ih (pos + 3) (p, m, s) (fun k hk => by
      rw [show pos + 3 + 3 * k = pos + 3 * (k + 1) by ring]
      exact hall (k + 1) (by omega))]
    refine congrArg (fun x => ((Except.error lenErrMsg, x), (p, m, s))) ?_
    ring

lemma genLoop_pools (minL maxL : Nat) (rng : Nat → Nat) : ∀ (fuel pos : Nat)
    (ps : Counter × Counter × Counter),
    (genLoop_st minL maxL rng fuel pos ps).2 = ps := by
  intro fuel
  induction fuel with
  | zero => intro pos ps; rfl
  | succ f ih =>
    intro pos ps
    obtain ⟨p, m, s⟩ := ps
    rw [genLoop_step]
    by_cases hin : inBounds minL maxL (candidate (p, m, s) rng pos)
    · rw [if_pos hin]
    · rw [if_neg hin]
      exact ih (pos + 3) (p, m, s)

/-! ### Lemmas about the finite-mode driver -/

lemma finite_mode_spec (pools : Counter × Counter × Counter)
    (minL maxL : Nat) (rng : Nat → Nat) : ∀ (n pos : Nat),
    ((finite_mode pools minL maxL rng n pos).2 = none ∧
      (finite_mode pools minL maxL rng n pos).1.length = n) ∨
    ((finite_mode pools minL maxL rng n pos).2.isSome ∧
      (finite_mode pools minL maxL rng n pos).1.length < n) := by
  intro n
  induction n with
  | zero => intro pos; exact Or.inl ⟨rfl, rfl⟩
  | succ k ih =>
    intro pos
    rcases hg : genLoop_st minL maxL rng 1000 pos pools with ⟨⟨res, pos2⟩, ps2⟩
    cases res with
    | ok nm =>
      rcases ih pos2 with ⟨h1, h2⟩ | ⟨h1, h2⟩
      · left
        constructor <;> simp [finite_mode, hg, h1, h2]
      · right
        refine ⟨by simp [finite_mode, hg, h1], ?_⟩
        simp only [finite_mode, hg, List.length_cons]
        omega
    | error msg =>
      right
      constructor <;> simp [finite_mode, hg]

/-! ### The finite-mode counterexample run -/

lemma ce_candidate (q : Nat) (h : 1 ≤ q) :
    candidate (ceP, ceM, ceS) ceRng q = ['z', 'z', 'b', 'c'] := by
  have h0 : ceRng q = 1 := by simp only [ceRng]; omega
  have h1 : ceRng (q + 1) = 1 := by simp only [ceRng]; omega
  have h2 : ceRng (q + 2) = 1 := by simp only [ceRng]; omega
  simp only [candidate, h0, h1, h2]
  rfl

lemma ce_second_call : genLoop_st 3 3 ceRng 1000 3 (ceP, ceM, ceS)
    = ((Except.error lenErrMsg, 3 + 3 * 1000), (ceP, ceM, ceS)) := by
  apply genLoop_all_fail
  intro k hk
  rw [ce_candidate (3 + 3 * k) (by omega)]
  decide

lemma ce_finite : finite_mode (ceP, ceM, ceS) 3 3 ceRng 2 0
    = ([['a', 'b', 'c']], some lenErrMsg) := by
  have h0 : genLoop_st 3 3 ceRng 1000 0 (ceP, ceM, ceS)
      = ((Except.ok ['a', 'b', 'c'], 3), (ceP, ceM, ceS)) := by rfl
  simp only [show (2 : Nat) = Nat.succ 1 from rfl, finite_mode, h0,
    show (1 : Nat) = Nat.succ 0 from rfl, ce_second_call]

/-! ### Claims -/

/-- C1, counterexample: on the input "banana" the Segmenter of the code
returns ("ba", "nan", "a"), while the syllable-greedy algorithm of the
claim yields syllables ba/na/na and hence ("ba", "na", "na") — so
`split_name` does not follow the syllable-greedy algorithm. -/
theorem c1_counterexample :
    split_name ['b', 'a', 'n', 'a', 'n', 'a']
        = (['b', 'a'], ['n', 'a', 'n'], ['a']) ∧
    syllableSplit ['b', 'a', 'n', 'a', 'n', 'a']
        = (['b', 'a'], ['n', 'a'], ['n', 'a']) ∧
    split_name ['b', 'a', 'n', 'a', 'n', 'a']
        ≠ syllableSplit ['b', 'a', 'n', 'a', 'n', 'a'] := by
  refine ⟨by decide, by decide, by decide⟩

/-- C1, amended: for every input string the Segmenter follows the
vowel-boundary heuristic: after trimming, a name with at least two vowels
is split at the first and last vowel (prefix up to and including the
first vowel, suffix from the last vowel on, middle strictly between); a
name with exactly one vowel and at least three characters keeps a
one-character prefix and suffix; otherwise a 30%/20% length-ratio
fallback (banker's rounding, each length at least 1, suffix then prefix
shrunk to fit within the name) is used. -/
theorem c1_amended_vowel_boundary (name : PyStr) :
    split_name name = split_name_spec name := by
  rw [split_name, split_name_spec, split_core_eq_spec]

/-- C2, counterexample: on the single-character input "b" the Segmenter
returns ("b", "", "b"), duplicating the character, so the total segment
length 2 exceeds the input length 1. -/
theorem c2_counterexample :
    split_name ['b'] = (['b'], [], ['b']) ∧
    ¬((split_name ['b']).1.length + (split_name ['b']).2.1.length
        + (split_name ['b']).2.2.length ≤ (['b'] : PyStr).length) := by
  refine ⟨by decide, by decide⟩

/-- C2, amended: for every input string whose whitespace-trimmed form has
at least two characters, the three segments concatenate (prefix, then
middle, then suffix) exactly to the trimmed input — so the left-to-right
character order is preserved — and their total character count is at most
the length of the original string. -/
theorem c2_amended_order_preserving (s : PyStr)
    (h : 2 ≤ (pyStrip s).length) :
    (split_name s).1 ++ ((split_name s).2.1 ++ (split_name s).2.2)
        = pyStrip s ∧
    (split_name s).1.length + (split_name s).2.1.length
        + (split_name s).2.2.length ≤ s.length := by
  have hc := split_name_concat s h
  refine ⟨hc, ?_⟩
  have hlen : ((split_name s).1 ++ ((split_name s).2.1
      ++ (split_name s).2.2)).length = (pyStrip s).length := by rw [hc]
  simp only [List.length_append] at hlen
  have := pyStrip_length_le s
  omega

/-- Witness for the amended C2 at the concrete input "banana". -/
theorem c2_amended_witness :
    2 ≤ (pyStrip ['b', 'a', 'n', 'a', 'n', 'a']).length ∧
    ((split_name ['b', 'a', 'n', 'a', 'n', 'a']).1
        ++ ((split_name ['b', 'a', 'n', 'a', 'n', 'a']).2.1
          ++ (split_name ['b', 'a', 'n', 'a', 'n', 'a']).2.2)
        = pyStrip ['b', 'a', 'n', 'a', 'n', 'a'] ∧
      (split_name ['b', 'a', 'n', 'a', 'n', 'a']).1.length
        + (split_name ['b', 'a', 'n', 'a', 'n', 'a']).2.1.length
        + (split_name ['b', 'a', 'n', 'a', 'n', 'a']).2.2.length
        ≤ (['b', 'a', 'n', 'a', 'n', 'a'] : PyStr).length) :=
  ⟨by decide, c2_amended_order_preserving ['b', 'a', 'n', 'a', 'n', 'a']
    (by decide)⟩

/-- C3, counterexample: "bra" is a single syllable (consonants "br"
followed by the vowel "a"), yet `build_weighted_pools ["bra"]` succeeds
with all three pools non-empty ("b"/"r"/"a"), because the code splits a
one-vowel name of length at least 3 into first char / interior / last
char rather than by syllables. -/
theorem c3_counterexample :
    isSingleSyllable ['b', 'r', 'a'] = true ∧
    build_weighted_pools [['b', 'r', 'a']]
        = Except.ok ([(['b'], 1)], [(['r'], 1)], [(['a'], 1)]) := by
  refine ⟨by decide, by rfl⟩

/-- C3, amended: for every corpus in which every name is (after trimming)
a single syllable of at most two characters, `build_weighted_pools` fails
with the insufficient-data error, because every such name has an empty
middle segment and so the middle pool ends up empty. -/
theorem c3_amended_single_syllable (names : List PyStr)
    (h : ∀ nm ∈ names, isSingleSyllable (pyStrip nm) = true ∧
      (pyStrip nm).length ≤ 2) :
    build_weighted_pools names = Except.error insufficientMsg := by
  rw [build_error_iff]
  right
  left
  exact buildFold_mid_nil names ([], [], [])
    (fun nm hm => split_name_mid_short nm (h nm hm).2) rfl

/-- Witness for the amended C3 at the concrete corpus ["ba"]. -/
theorem c3_amended_witness :
    (∀ nm ∈ ([[ 'b', 'a']] : List PyStr),
      isSingleSyllable (pyStrip nm) = true ∧ (pyStrip nm).length ≤ 2) ∧
    build_weighted_pools [['b', 'a']] = Except.error insufficientMsg :=
  ⟨by decide, c3_amended_single_syllable [['b', 'a']] (by decide)⟩

/-- C4: `generate_name` makes at most 1000 attempts; it returns the first
sampled concatenation whose length lies within the inclusive bounds, and
if none of the 1000 attempts succeeds it fails with the length-bounds
error — so every call terminates in one of these two outcomes. -/
theorem c4_generate_name_bounded (pools : Counter × Counter × Counter)
    (minL maxL : Nat) (rng : Nat → Nat) (pos : Nat) :
    genSpec pools minL maxL rng pos :=
  genLoop_char minL maxL rng 1000 pos pools

/-- Witness for C4 at concrete pools and a concrete draw stream. -/
theorem c4_witness :
    genSpec ([(['a'], 1)], [(['b'], 1)], [(['c'], 1)]) 1 10
      (fun _ => 0) 0 :=
  c4_generate_name_bounded ([(['a'], 1)], [(['b'], 1)], [(['c'], 1)]) 1 10
    (fun _ => 0) 0

/-- C5: every key of every pool built by `build_weighted_pools` is a
non-empty segment with count at least 1, and the insufficient-data error
is raised exactly when at least one of the three pools is empty after
processing all names. -/
theorem c5_pool_invariants (names : List PyStr) :
    (goodCounter (buildCounters names).1 ∧
      goodCounter (buildCounters names).2.1 ∧
      goodCounter (buildCounters names).2.2) ∧
    (build_weighted_pools names = Except.error insufficientMsg ↔
      ((buildCounters names).1 = [] ∨ (buildCounters names).2.1 = [] ∨
        (buildCounters names).2.2 = [])) := by
  constructor
  · exact buildFold_good names ([], [], [])
      (fun kv h => absurd h (List.not_mem_nil kv))
      (fun kv h => absurd h (List.not_mem_nil kv))
      (fun kv h => absurd h (List.not_mem_nil kv))
  · exact build_error_iff names

/-- Witness for C5 at the concrete corpus ["ba"]. -/
theorem c5_witness :
    (goodCounter (buildCounters [['b', 'a']]).1 ∧
      goodCounter (buildCounters [['b', 'a']]).2.1 ∧
      goodCounter (buildCounters [['b', 'a']]).2.2) ∧
    (build_weighted_pools [['b', 'a']] = Except.error insufficientMsg ↔
      ((buildCounters [['b', 'a']]).1 = [] ∨
        (buildCounters [['b', 'a']]).2.1 = [] ∨
        (buildCounters [['b', 'a']]).2.2 = [])) :=
  c5_pool_invariants [['b', 'a']]

/-- C6, counterexample: with the concrete pools and draw stream of `ceP`,
`ceM`, `ceS`, `ceRng`, bounds 3..3 and count 2, the driver emits the name
"abc" and then fails: the run produces exactly one name with an error
signal, so it neither emits exactly `count` names nor fails before
emitting any. -/
theorem c6_counterexample :
    finite_mode (ceP, ceM, ceS) 3 3 ceRng 2 0
        = ([['a', 'b', 'c']], some lenErrMsg) ∧
    ¬((finite_mode (ceP, ceM, ceS) 3 3 ceRng 2 0).1.length = 2 ∨
      ((finite_mode (ceP, ceM, ceS) 3 3 ceRng 2 0).2.isSome ∧
        (finite_mode (ceP, ceM, ceS) 3 3 ceRng 2 0).1 = [])) := by
  refine ⟨ce_finite, ?_⟩
  rw [ce_finite]
  decide

/-- C6, amended: in finite mode with count N the driver either emits
exactly N names with no error, or fails with a signalled error after
emitting some k < N names (possibly zero); it never silently truncates
the batch without signalling. -/
theorem c6_amended_finite_mode (pools : Counter × Counter × Counter)
    (minL maxL : Nat) (rng : Nat → Nat) (n pos : Nat) :
    ((finite_mode pools minL maxL rng n pos).2 = none ∧
      (finite_mode pools minL maxL rng n pos).1.length = n) ∨
    ((finite_mode pools minL maxL rng n pos).2.isSome ∧
      (finite_mode pools minL maxL rng n pos).1.length < n) :=
  finite_mode_spec pools minL maxL rng n pos

/-- C7: with the same seed supplied, two sessions over the identical
corpus and identical configuration produce identical output, whatever the
ambient global random state of either session was beforehand. -/
theorem c7_seed_determinism (names : List PyStr) (count minL maxL sd : Nat)
    (g1 g2 : Nat → Nat) :
    session names count minL maxL (some sd) g1
      = session names count minL maxL (some sd) g2 := rfl

/-- C8: the Segmenter maps the empty string to three empty segments. -/
theorem c8_split_empty : split_name [] = ([], [], []) := rfl

/-- C9: the pools are never mutated: `generate_name` (whose embedding
threads the pool state through every read of the loop) returns the pools
it was given, and the debug dump returns its counter unchanged. -/
theorem c9_pools_immutable (pools : Counter × Counter × Counter)
    (minL maxL : Nat) (rng : Nat → Nat) (pos : Nat) (c : Counter) :
    (generate_name pools minL maxL rng pos).2 = pools ∧
    (dump_counters_st c).2 = c :=
  ⟨genLoop_pools minL maxL rng 1000 pos pools, rfl⟩

/-- C10: a name that is non-empty after trimming splits with a non-empty
prefix and suffix; hence a corpus with at least one usable name has
non-empty prefix and suffix pools, and the insufficient-data failure
occurs exactly when the middle pool is empty. -/
theorem c10_prefix_suffix_nonempty (s : PyStr) (names : List PyStr)
    (h1 : pyStrip s ≠ []) (h2 : ∃ nm ∈ names, pyStrip nm ≠ []) :
    (split_name s).1 ≠ [] ∧ (split_name s).2.2 ≠ [] ∧
    (buildCounters names).1 ≠ [] ∧ (buildCounters names).2.2 ≠ [] ∧
    (build_weighted_pools names = Except.error insufficientMsg ↔
      (buildCounters names).2.1 = []) := by
  obtain ⟨hp, hs⟩ := split_name_pre_suf s h1
  have hP : (buildCounters names).1 ≠ [] :=
    buildFold_p_once names ([], [], []) h2
  have hS : (buildCounters names).2.2 ≠ [] :=
    buildFold_s_once names ([], [], []) h2
  refine ⟨hp, hs, hP, hS, ?_⟩
  rw [build_error_iff]
  constructor
  · rintro (h | h | h)
    · exact absurd h hP
    · exact h
    · exact absurd h hS
  · intro h
    right
    left
    exact h

/-- Witness for C10 at the concrete name "b" and corpus ["ba"]. -/
theorem c10_witness :
    pyStrip ['b'] ≠ [] ∧
    (∃ nm ∈ ([[ 'b', 'a']] : List PyStr), pyStrip nm ≠ []) ∧
    ((split_name ['b']).1 ≠ [] ∧ (split_name ['b']).2.2 ≠ [] ∧
      (buildCounters [['b', 'a']]).1 ≠ [] ∧
      (buildCounters [['b', 'a']]).2.2 ≠ [] ∧
      (build_weighted_pools [['b', 'a']] = Except.error insufficientMsg ↔
        (buildCounters [['b', 'a']]).2.1 = [])) :=
  ⟨by decide, ⟨['b', 'a'], by simp, by decide⟩,
    c10_prefix_suffix_nonempty ['b'] [['b', 'a']] (by decide)
      ⟨['b', 'a'], by simp, by decide⟩⟩
